import Mathlib

/-!
Verification of the monitor layout/geometry engine of
`src/.config/hypr/scripts/monitor-picker.py`.

The Python program stores a monitor's scale as a float that is kept in
lockstep with an integer number of tenths (`new_scale_tenths`, and
`_scale_tenths_from` for queried monitors).  The embedding therefore
represents a monitor's scale directly by its integer tenths
(`scaleTenths`), and models the float expression `width / scale`
(with `scale = scaleTenths / 10`) by the exact rational
`width * 10 / scaleTenths` — the exact truncation semantics the spec
demands.  The program's IEEE double arithmetic deviates from this exact
semantics at some inputs: `int(33 / 1.1)` is 29 while the exact truncated
quotient is 30.  That divergence is pinned down, with an explicit model of
the rounded doubles involved, in `float33_div_fl11_rounds_below_30`,
`C4_logical_size_float_bug` and `C2_symbolic_float_bug`; the remaining
integer divisions of the source (floor division, POSIX shell truncating
division) act on non-negative dividends and positive divisors, where they
coincide with Lean's integer division.
-/

set_option autoImplicit false

namespace MonitorPicker

/-- Monitor attribute record: the fields of the wlr-randr info dict used by
the geometry engine.  `scaleTenths` is the integer-tenths representation of
the float `scale` field (`scale = scaleTenths / 10`). -/
structure Mon where
  width : ℤ
  height : ℤ
  x : ℤ
  y : ℤ
  scaleTenths : ℤ
  deriving DecidableEq, Repr

/-- Relative placement of the new monitor, the four values of `POSITIONS`. -/
inductive Pos where
  | below
  | right
  | above
  | left
  deriving DecidableEq, BEq, Repr

/-- Embedding of `POSITIONS = ["below", "right", "above", "left"]`. -/
def POSITIONS : List Pos := [.below, .right, .above, .left]

/-- Embedding of `logical_size`: logical pixel dimensions `res / scale`
truncated to integers.  The source computes `int(mon["width"] / s)` with the
float `s = scaleTenths / 10`; this definition is the exact truncation
semantics the spec demands of it.  The float computation deviates from this
exact semantics at some inputs (width 33, scaleTenths 11: program 29, exact
30) — see `C4_logical_size_float_bug`. -/
def logical_size (m : Mon) : ℤ × ℤ :=
  (m.width * 10 / m.scaleTenths, m.height * 10 / m.scaleTenths)

/-- Embedding of `monitors_overlap`: strict rectangle intersection of the two
logical boxes. -/
def monitors_overlap (current : Mon) (new_x new_y : ℤ) (new_mon : Mon) : Bool :=
  decide (new_x < current.x + (logical_size current).1) &&
  decide (new_x + (logical_size new_mon).1 > current.x) &&
  decide (new_y < current.y + (logical_size current).2) &&
  decide (new_y + (logical_size new_mon).2 > current.y)

/-- Embedding of `calc_hypr_position`: absolute coordinates for the new
monitor, with *offset* applied on the axis perpendicular to the placement. -/
def calc_hypr_position (position : Pos) (current new : Mon) (offset : ℤ) : ℤ × ℤ :=
  match position with
  | .right => (current.x + (logical_size current).1, current.y + offset)
  | .left => (current.x - (logical_size new).1, current.y + offset)
  | .below => (current.x + offset, current.y + (logical_size current).2)
  | .above => (current.x + offset, current.y - (logical_size new).2)

/-- Embedding of `_format_scale`: `20 → "2"`, `24 → "2.4"`, `15 → "1.5"`.
The source formats `scale_tenths / 10` as a float with one decimal digit;
for the tenths range used by the program this equals the exact decimal
string rendered here. -/
def format_scale (scale_tenths : ℤ) : String :=
  if scale_tenths % 10 = 0 then toString (scale_tenths / 10)
  else toString (scale_tenths / 10) ++ "." ++ toString (scale_tenths % 10)

/-- Round-half-to-even of the exact quotient `a / b` (for `0 < b`): the
integer-only model of Python's `round` applied to the rational `a / b`. -/
def pyRoundDiv (a b : ℤ) : ℤ :=
  let q := a / b
  let r := a % b
  if 2 * r < b then q
  else if b < 2 * r then q + 1
  else if q % 2 = 0 then q else q + 1

/-- Round-half-to-even on rationals: the model of Python's `round` used by
`_scale_tenths_from` (Python 3 `round` breaks ties to the even integer). -/
def pyRoundQ (q : ℚ) : ℤ :=
  if q - ⌊q⌋ = 1 / 2 then (if ⌊q⌋ % 2 = 0 then ⌊q⌋ else ⌊q⌋ + 1) else round q

/-- Embedding of `_scale_tenths_from`: `round(mon["scale"] * 10)` applied to
the (exact rational model of the) float scale value. -/
def scale_tenths_from (scale : ℚ) : ℤ :=
  pyRoundQ (scale * 10)

/-! Arithmetic-expression form.  The source builds bash `$(( ))` strings; the
embedding builds a small expression AST whose `render` reproduces the emitted
text byte for byte and whose `eval` is POSIX shell integer arithmetic
(truncating division), the latter modelled from the spec. -/

/-- Expression AST for the emitted `$(( ))` arithmetic text. -/
inductive AExpr where
  | lit (n : ℤ)
  | paren (e : AExpr)
  | add (a b : AExpr)
  | sub (a b : AExpr)
  | mul (a b : AExpr)
  | div (a b : AExpr)
  deriving DecidableEq, Repr

/-- Modelled from the spec: evaluation of the emitted expression under POSIX
shell `$(( ))` integer arithmetic, whose division truncates toward zero. -/
def AExpr.eval : AExpr → ℤ
  | .lit n => n
  | .paren e => e.eval
  | .add a b => a.eval + b.eval
  | .sub a b => a.eval - b.eval
  | .mul a b => a.eval * b.eval
  | .div a b => Int.tdiv a.eval b.eval

/-- Rendering of the AST to the exact text built by the source's f-strings. -/
def AExpr.render : AExpr → String
  | .lit n => toString n
  | .paren e => "(" ++ e.render ++ ")"
  | .add a b => a.render ++ " + " ++ b.render
  | .sub a b => a.render ++ " - " ++ b.render
  | .mul a b => a.render ++ " * " ++ b.render
  | .div a b => a.render ++ " / " ++ b.render

/-- Embedding of `_scale_div_expr`: expression for `value / scale` using
integer tenths (`value / (tenths // 10)` when tenths is a multiple of 10,
otherwise `value * 10 / tenths`). -/
def scale_div_expr (value scale_tenths : ℤ) : AExpr :=
  if scale_tenths % 10 = 0 then .div (.lit value) (.lit (scale_tenths / 10))
  else .div (.mul (.lit value) (.lit 10)) (.lit scale_tenths)

/-- Embedding of the local helper `_add` in `_build_pos_exprs`
(renders as `base + (extra)`, or just `extra` when base is 0). -/
def eadd (base : ℤ) (extra : AExpr) : AExpr :=
  if base = 0 then extra else .add (.lit base) (.paren extra)

/-- Embedding of the local helper `_sub` in `_build_pos_exprs`
(renders as `base - (extra)`, or `0 - (extra)` when base is 0). -/
def esub (base : ℤ) (extra : AExpr) : AExpr :=
  if base = 0 then .sub (.lit 0) (.paren extra) else .sub (.lit base) (.paren extra)

/-- Embedding of the local helper `_with_offset` in `_build_pos_exprs`
(renders as `val`, `val + off` or `val - |off|`). -/
def with_offset (val off : ℤ) : AExpr :=
  if off = 0 then .lit val
  else if 0 < off then .add (.lit val) (.lit off)
  else .sub (.lit val) (.lit |off|)

/-- Embedding of `_build_pos_exprs`: the pair of arithmetic expressions (as
ASTs) whose rendered forms are the `x` and `y` position fields of the
symbolic directive. -/
def build_pos_exprs (position : Pos) (current new : Mon) (offset : ℤ)
    (new_scale_tenths : ℤ) : AExpr × AExpr :=
  match position with
  | .right =>
      (eadd current.x (scale_div_expr current.width current.scaleTenths),
       with_offset current.y offset)
  | .left =>
      (esub current.x (scale_div_expr new.width new_scale_tenths),
       with_offset current.y offset)
  | .below =>
      (with_offset current.x offset,
       eadd current.y (scale_div_expr current.height current.scaleTenths))
  | .above =>
      (with_offset current.x offset,
       esub current.y (scale_div_expr new.height new_scale_tenths))

/-- Rendered `$(( ))` strings exactly as returned by `_build_pos_exprs`. -/
def build_pos_strs (position : Pos) (current new : Mon) (offset : ℤ)
    (new_scale_tenths : ℤ) : String × String :=
  let p := build_pos_exprs position current new offset new_scale_tenths
  ("$((" ++ p.1.render ++ "))", "$((" ++ p.2.render ++ "))")

/-! Persistence merger.  A file is a list of lines (each line keeps any
trailing newline character).  The kernel cannot reduce `String.trim` and
friends, so the Python string operations `strip`, `startswith` and `in` are
embedded as character-list functions with the same meaning. -/

/-- Model of Python `str.strip`: drop whitespace from both ends.
`Char.isWhitespace` covers space, tab, CR and LF; Python additionally strips
`\x0b`, `\x0c` and other Unicode whitespace, which no merger theorem relies
on. -/
def stripL (s : List Char) : List Char :=
  ((s.dropWhile Char.isWhitespace).reverse.dropWhile Char.isWhitespace).reverse

/-- Model of Python `str.strip` on `String`. -/
def strip (s : String) : String :=
  String.mk (stripL s.toList)

/-- Model of the Python substring test `needle in hay`. -/
def isInfixL (needle : List Char) : List Char → Bool
  | [] => needle.isEmpty
  | c :: rest => needle.isPrefixOf (c :: rest) || isInfixL needle rest

/-- Test from `rewrite_monitors_conf`: does the (already stripped) line text
contain `"= <name>"` or `"= <name>,"`. -/
def lineMatches (stripped name : String) : Bool :=
  isInfixL ("= " ++ name).toList stripped.toList ||
  isInfixL ("= " ++ name ++ ",").toList stripped.toList

/-- Test from `rewrite_monitors_conf`: `line.strip().startswith("monitor")`. -/
def startsMonitor (line : String) : Bool :=
  "monitor".toList.isPrefixOf (strip line).toList

/-- Replacement line `f"monitor = {cfg}\n"` written for a matched or appended
config body. -/
def fmtLine (cfg : String) : String :=
  "monitor = " ++ cfg ++ "\n"

/-- Combined per-name match test: the line is a directive line (stripped text
starts with `monitor`) whose stripped text references `name`. -/
def hitsName (line name : String) : Bool :=
  startsMonitor line && lineMatches (strip line) name

/-- Processing of one input line by the loop body of `rewrite_monitors_conf`:
returns the emitted output line and the updated pending map.  `remaining` is
an association list in insertion order, matching Python dict iteration; the
first pending entry whose name the stripped line references wins and is
removed from the pending map. -/
def mergeStep (remaining : List (String × String)) (line : String) :
    String × List (String × String) :=
  if startsMonitor line then
    match remaining.find? (fun p => lineMatches (strip line) p.1) with
    | some p => (fmtLine p.2, remaining.eraseP (fun q => q.1 == p.1))
    | none => (line, remaining)
  else (line, remaining)

/-- Output lines produced by the scan loop of `rewrite_monitors_conf`, one
output line per input line. -/
def procLines : List String → List (String × String) → List String
  | [], _ => []
  | l :: ls, rem => (mergeStep rem l).1 :: procLines ls (mergeStep rem l).2

/-- Pending map left after the scan loop of `rewrite_monitors_conf`. -/
def scanRem : List String → List (String × String) → List (String × String)
  | [], rem => rem
  | l :: ls, rem => scanRem ls (mergeStep rem l).2

/-- Embedding of `rewrite_monitors_conf` as a pure line transformer: scan the
existing lines replacing matched directive lines, then append a directive for
every config still pending. -/
def rewrite_monitors_conf (content : List String) (configs : List (String × String)) :
    List String :=
  procLines content configs ++ (scanRem content configs).map (fun p => fmtLine p.2)

/-! Snap offsets and the interactive session state. -/

/-- Embedding of `_snap_offsets`: sorted offsets at which monitor edges
visually coincide.  The source computes `round(v / (2 * cs))` with float
`cs = scaleTenths / 10`; the exact rational value is `v * 5 / scaleTenths`,
rounded half-to-even like Python's `round`.  At exact ties the float
quotient can fall just under the tie and round low (height difference 33,
scaleTenths 22: program 7, this exact model 8); the snap selection rule
proved about `snap_offset` does not depend on the candidate values. -/
def snap_offsets (position : Pos) (current new_mon : Mon) : List ℤ :=
  let cs := current.scaleTenths
  let pts : List ℤ :=
    match position with
    | .right | .left =>
      [pyRoundDiv ((new_mon.height - current.height) * 5) cs,
       pyRoundDiv ((current.height - new_mon.height) * 5) cs,
       pyRoundDiv ((new_mon.height + current.height) * 5) cs,
       pyRoundDiv (-(new_mon.height + current.height) * 5) cs]
    | .above | .below =>
      [pyRoundDiv ((new_mon.width - current.width) * 5) cs,
       pyRoundDiv ((current.width - new_mon.width) * 5) cs,
       pyRoundDiv ((new_mon.width + current.width) * 5) cs,
       pyRoundDiv (-(new_mon.width + current.width) * 5) cs]
  List.insertionSort (· ≤ ·) pts.dedup

/-- Embedding of `_snap_offset`: snap the stepped offset to an alignment
point if one was crossed, else keep the raw stepped value. -/
def snap_offset (snaps : List ℤ) (old new : ℤ) (moving_positive : Bool) : ℤ :=
  if moving_positive then
    match (snaps.filter fun s => decide (old < s) && decide (s ≤ new)).min? with
    | some m => m
    | none => new
  else
    match (snaps.filter fun s => decide (s < old) && decide (new ≤ s)).max? with
    | some m => m
    | none => new

/-- Arrow keys handled by `on_key` via `POS_MAP`. -/
inductive ArrowKey where
  | up
  | down
  | left
  | right
  deriving DecidableEq, BEq, Repr

/-- Embedding of `POS_MAP`: Right → right, Left → left, Up → below,
Down → above. -/
def pos_map : ArrowKey → Pos
  | .right => .right
  | .left => .left
  | .up => .below
  | .down => .above

/-- Key events that mutate the session placement state.  Escape, Return and
Ctrl+C do not modify the placement fields and are omitted. -/
inductive KeyEvent where
  | arrow (k : ArrowKey) (alt shift : Bool)
  | keyS
  | keyShiftS
  deriving DecidableEq, Repr

/-- Mutable session placement state of `MonitorPicker`. -/
structure PickerState where
  pos_index : ℕ
  offset : ℤ
  new_scale_tenths : ℤ
  deriving DecidableEq, Repr

/-- Current relative position `POSITIONS[self.pos_index]`. -/
def PickerState.position (s : PickerState) : Pos :=
  POSITIONS.getD s.pos_index .below

/-- Test from `on_key`: the pressed arrow adjusts the perpendicular offset
for the current position. -/
def isOffsetKey (pos : Pos) (k : ArrowKey) : Bool :=
  match pos, k with
  | .right, .up | .right, .down | .left, .up | .left, .down => true
  | .above, .left | .above, .right | .below, .left | .below, .right => true
  | _, _ => false

/-- Embedding of the state mutations of `MonitorPicker.on_key`: plain arrows
select the position and reset the offset, Alt+Arrow steps the offset by 25
with snapping, Shift+Arrow steps it by 1 without snapping, and `s` / `S`
step the scale tenths by -1 / +1 clamped to [5, 50]. -/
def on_key (current new_mon : Mon) (st : PickerState) : KeyEvent → PickerState
  | .arrow k alt shift =>
    if alt || shift then
      let pos := st.position
      let step : ℤ := if shift then 1 else 25
      if isOffsetKey pos k then
        let positive : Bool := k == .down || k == .right
        let delta : ℤ := if positive then step else -step
        let raw := st.offset + delta
        let new_offset :=
          if !shift then
            snap_offset (snap_offsets pos current new_mon) st.offset raw (decide (0 < delta))
          else raw
        { st with offset := new_offset }
      else st
    else
      { st with pos_index := POSITIONS.indexOf (pos_map k), offset := 0 }
  | .keyS => { st with new_scale_tenths := max 5 (st.new_scale_tenths - 1) }
  | .keyShiftS => { st with new_scale_tenths := min 50 (st.new_scale_tenths + 1) }

/-- Initial session state from `MonitorPicker.__init__`: position index 1
(right), offset 0, scale tenths taken from the new monitor's record. -/
def init_state (new_mon : Mon) : PickerState :=
  { pos_index := 1, offset := 0, new_scale_tenths := new_mon.scaleTenths }

/-- States reachable during a session: the initial state and everything
obtainable from it by key events. -/
inductive Reachable (current new_mon : Mon) : PickerState → Prop
  | init : Reachable current new_mon (init_state new_mon)
  | step {s : PickerState} (e : KeyEvent) :
      Reachable current new_mon s → Reachable current new_mon (on_key current new_mon s e)

/-! Scale-string parsing, modelled from the spec for the round-trip claim. -/

/-- Numeric value of a list of decimal digit characters. -/
def digitsToNat (cs : List Char) : ℕ :=
  cs.foldl (fun n c => 10 * n + (c.toNat - 48)) 0

/-- Split a character list at the first dot, if any. -/
def splitDot : List Char → List Char × Option (List Char)
  | [] => ([], none)
  | c :: rest =>
    if c = '.' then ([], some rest)
    else ((splitDot rest).1.cons c, (splitDot rest).2)

/-- Modelled from the spec: the numeric value denoted by a displayed decimal
scale string such as `2` or `2.4` (the `parse` of the round-trip property,
which has no counterpart function in the source). -/
def parse_decimal (s : String) : ℚ :=
  (digitsToNat (splitDot s.toList).1 : ℚ) +
    Option.elim (splitDot s.toList).2 0 (fun b => (digitsToNat b : ℚ) / 10 ^ b.length)

/-- Decidable checker relating a displayed decimal string to a tenths value:
either the string has no dot and its digits denote `t / 10` exactly, or it
has one fractional digit and the digits denote tenths summing to `t`. -/
def roundtripCheck (s : String) (t : ℤ) : Bool :=
  Option.elim (splitDot s.toList).2
    (10 * (digitsToNat (splitDot s.toList).1 : ℤ) == t)
    (fun b => b.length == 1 &&
      (10 * (digitsToNat (splitDot s.toList).1 : ℤ) + (digitsToNat b : ℤ) == t))

/-- Example record: a 2560x1600 monitor at the origin with scale 2. -/
def monA : Mon :=
  { width := 2560, height := 1600, x := 0, y := 0, scaleTenths := 20 }

/-- Example record: a 3840x2160 monitor with scale 2.4. -/
def monB : Mon :=
  { width := 3840, height := 2160, x := 5, y := 7, scaleTenths := 24 }

/-! Helper lemmas. -/

theorem pyRoundQ_intCast (n : ℤ) : pyRoundQ (n : ℚ) = n := by
  unfold pyRoundQ
  rw [Int.floor_intCast]
  norm_num

theorem scale_tenths_from_div10 (t : ℤ) : scale_tenths_from ((t : ℚ) / 10) = t := by
  unfold scale_tenths_from
  have h : ((t : ℚ) / 10) * 10 = (t : ℚ) := by
    field_simp
  rw [h, pyRoundQ_intCast]

theorem parse_of_check (s : String) (t : ℤ) (h : roundtripCheck s t = true) :
    parse_decimal s = (t : ℚ) / 10 := by
  rcases hs : splitDot s.toList with ⟨a, b⟩
  rw [roundtripCheck, hs] at h
  rw [parse_decimal, hs]
  cases b with
  | none =>
      simp only [Option.elim, beq_iff_eq] at h ⊢
      rw [← h]
      push_cast
      ring
  | some bs =>
      simp only [Option.elim, Bool.and_eq_true, beq_iff_eq] at h ⊢
      obtain ⟨hlen, heq⟩ := h
      rw [hlen, ← heq]
      push_cast
      field_simp
      ring

theorem scale_roundtrip_of_check (s : String) (t : ℤ) (h : roundtripCheck s t = true) :
    scale_tenths_from (parse_decimal s) = t := by
  rw [parse_of_check s t h, scale_tenths_from_div10]

theorem floor_div_tenths (w t : ℤ) (ht : 0 < t) :
    ⌊(w : ℚ) / ((t : ℚ) / 10)⌋ = w * 10 / t := by
  have hd : ((t.toNat : ℕ) : ℚ) = (t : ℚ) := by
    exact_mod_cast congrArg (fun z : ℤ => (z : ℚ)) (Int.toNat_of_nonneg ht.le)
  have hw : (w : ℚ) / ((t : ℚ) / 10) = ((w * 10 : ℤ) : ℚ) / ((t.toNat : ℕ) : ℚ) := by
    rw [div_div_eq_mul_div, hd]
    push_cast
    ring
  rw [hw, Rat.floor_intCast_div_natCast]
  rw [Int.toNat_of_nonneg ht.le]

instance : Std.Antisymm (fun x1 x2 : ℤ => x1 ≤ x2) :=
  ⟨fun h1 h2 => le_antisymm h1 h2⟩

theorem int_min?_spec {l : List ℤ} {a : ℤ} (h : l.min? = some a) :
    a ∈ l ∧ ∀ b ∈ l, a ≤ b := by
  exact (List.min?_eq_some_iff (fun x : ℤ => le_refl x)
    (fun x y => min_choice x y) (fun x y z => le_min_iff)).mp h

theorem int_max?_spec {l : List ℤ} {a : ℤ} (h : l.max? = some a) :
    a ∈ l ∧ ∀ b ∈ l, b ≤ a := by
  exact (List.max?_eq_some_iff (fun x : ℤ => le_refl x)
    (fun x y => max_choice x y) (fun x y z => max_le_iff)).mp h

theorem snap_offset_pos_spec (snaps : List ℤ) (old raw : ℤ) :
    (snap_offset snaps old raw true = raw ∧ ∀ s ∈ snaps, ¬(old < s ∧ s ≤ raw)) ∨
    (snap_offset snaps old raw true ∈ snaps ∧
     old < snap_offset snaps old raw true ∧ snap_offset snaps old raw true ≤ raw ∧
     ∀ s ∈ snaps, old < s → s ≤ raw → snap_offset snaps old raw true ≤ s) := by
  rcases hmin : (snaps.filter fun s => decide (old < s) && decide (s ≤ raw)).min? with _ | m
  · left
    refine ⟨by simp [snap_offset, hmin], fun s hs hcross => ?_⟩
    have hmem : s ∈ snaps.filter fun s => decide (old < s) && decide (s ≤ raw) := by
      rw [List.mem_filter]
      exact ⟨hs, by simp [hcross.1, hcross.2]⟩
    rcases hnil : snaps.filter fun s => decide (old < s) && decide (s ≤ raw) with _ | ⟨x, xs⟩
    · rw [hnil] at hmem
      exact absurd hmem (List.not_mem_nil s)
    · rw [hnil] at hmin
      exact Option.noConfusion hmin
  · right
    have hres : snap_offset snaps old raw true = m := by
      simp [snap_offset, hmin]
    obtain ⟨hmem, hleast⟩ := int_min?_spec hmin
    rw [List.mem_filter] at hmem
    obtain ⟨hin, hcond⟩ := hmem
    simp only [Bool.and_eq_true, decide_eq_true_eq] at hcond
    rw [hres]
    refine ⟨hin, hcond.1, hcond.2, fun s hs h1 h2 => ?_⟩
    refine hleast s ?_
    rw [List.mem_filter]
    exact ⟨hs, by simp [h1, h2]⟩

theorem snap_offset_neg_spec (snaps : List ℤ) (old raw : ℤ) :
    (snap_offset snaps old raw false = raw ∧ ∀ s ∈ snaps, ¬(raw ≤ s ∧ s < old)) ∨
    (snap_offset snaps old raw false ∈ snaps ∧
     raw ≤ snap_offset snaps old raw false ∧ snap_offset snaps old raw false < old ∧
     ∀ s ∈ snaps, raw ≤ s → s < old → s ≤ snap_offset snaps old raw false) := by
  rcases hmax : (snaps.filter fun s => decide (s < old) && decide (raw ≤ s)).max? with _ | m
  · left
    refine ⟨by simp [snap_offset, hmax], fun s hs hcross => ?_⟩
    have hmem : s ∈ snaps.filter fun s => decide (s < old) && decide (raw ≤ s) := by
      rw [List.mem_filter]
      exact ⟨hs, by simp [hcross.1, hcross.2]⟩
    rcases hnil : snaps.filter fun s => decide (s < old) && decide (raw ≤ s) with _ | ⟨x, xs⟩
    · rw [hnil] at hmem
      exact absurd hmem (List.not_mem_nil s)
    · rw [hnil] at hmax
      exact Option.noConfusion hmax
  · right
    have hres : snap_offset snaps old raw false = m := by
      simp [snap_offset, hmax]
    obtain ⟨hmem, hgreatest⟩ := int_max?_spec hmax
    rw [List.mem_filter] at hmem
    obtain ⟨hin, hcond⟩ := hmem
    simp only [Bool.and_eq_true, decide_eq_true_eq] at hcond
    rw [hres]
    refine ⟨hin, hcond.2, hcond.1, fun s hs h1 h2 => ?_⟩
    refine hgreatest s ?_
    rw [List.mem_filter]
    exact ⟨hs, by simp [h1, h2]⟩

theorem eadd_eval (base : ℤ) (e : AExpr) : (eadd base e).eval = base + e.eval := by
  unfold eadd
  split
  · rename_i h
    rw [h]
    simp [AExpr.eval]
  · simp [AExpr.eval]

theorem esub_eval (base : ℤ) (e : AExpr) : (esub base e).eval = base - e.eval := by
  unfold esub
  split
  · rename_i h
    rw [h]
    simp [AExpr.eval]
  · simp [AExpr.eval]

theorem with_offset_eval (v o : ℤ) : (with_offset v o).eval = v + o := by
  unfold with_offset
  split
  · rename_i h
    rw [h]
    simp [AExpr.eval]
  · split
    · simp [AExpr.eval]
    · rename_i h1 h2
      have habs : |o| = -o := abs_of_nonpos (by omega)
      simp [AExpr.eval, habs]

theorem scale_div_expr_eval (v t : ℤ) (hv : 0 ≤ v) (ht : 5 ≤ t) :
    (scale_div_expr v t).eval = v * 10 / t := by
  unfold scale_div_expr
  by_cases h : t % 10 = 0
  · rw [if_pos h]
    simp only [AExpr.eval]
    have hk : t = 10 * (t / 10) := by omega
    have hkpos : 0 < t / 10 := by omega
    rw [Int.tdiv_eq_ediv hv hkpos.le]
    rw [mul_comm v 10]
    calc v / (t / 10) = 10 * v / (10 * (t / 10)) := (Int.mul_ediv_mul_of_pos v (t / 10) (by omega)).symm
    _ = 10 * v / t := by rw [← hk]
  · rw [if_neg h]
    simp only [AExpr.eval]
    exact Int.tdiv_eq_ediv (by positivity) (by omega)

theorem mergeStep_not_directive (rem : List (String × String)) (l : String)
    (h : startsMonitor l = false) : mergeStep rem l = (l, rem) := by
  unfold mergeStep
  simp [h]

theorem mergeStep_found (rem : List (String × String)) (l : String) (p : String × String)
    (hd : startsMonitor l = true)
    (hf : rem.find? (fun q => lineMatches (strip l) q.1) = some p) :
    mergeStep rem l = (fmtLine p.2, rem.eraseP (fun q => q.1 == p.1)) := by
  unfold mergeStep
  simp [hd, hf]

theorem mergeStep_not_found (rem : List (String × String)) (l : String)
    (hd : startsMonitor l = true)
    (hf : rem.find? (fun q => lineMatches (strip l) q.1) = none) :
    mergeStep rem l = (l, rem) := by
  unfold mergeStep
  simp [hd, hf]

theorem procLines_cons (l : String) (ls : List String) (rem : List (String × String)) :
    procLines (l :: ls) rem = (mergeStep rem l).1 :: procLines ls (mergeStep rem l).2 := rfl

theorem scanRem_cons (l : String) (ls : List String) (rem : List (String × String)) :
    scanRem (l :: ls) rem = scanRem ls (mergeStep rem l).2 := rfl

theorem procLines_preserves_frame (configs : List (String × String)) :
    ∀ (ls : List String) (rem : List (String × String)),
      (∀ p ∈ rem, p ∈ configs) →
      (ls.filter fun l => !(configs.any fun p => hitsName l p.1)).Sublist (procLines ls rem) := by
  intro ls
  induction ls with
  | nil => intro rem _; simp
  | cons l ls ih =>
      intro rem hsub
      rw [procLines_cons]
      by_cases hd : startsMonitor l = true
      · rcases hf : rem.find? (fun q => lineMatches (strip l) q.1) with _ | p
        · rw [mergeStep_not_found rem l hd hf]
          dsimp only
          by_cases hp : (configs.any fun p => hitsName l p.1) = true
          · rw [List.filter_cons_of_neg (by simp [hp])]
            exact (ih rem hsub).cons l
          · rw [List.filter_cons_of_pos (by simp [Bool.eq_false_iff.mpr hp])]
            exact (ih rem hsub).cons₂ l
        · rw [mergeStep_found rem l p hd hf]
          dsimp only
          have hp : (configs.any fun q => hitsName l q.1) = true := by
            rw [List.any_eq_true]
            refine ⟨p, hsub p (List.mem_of_find?_eq_some hf), ?_⟩
            simp [hitsName, hd, List.find?_some hf]
          rw [List.filter_cons_of_neg (by simp [hp])]
          refine List.Sublist.cons _ (ih (rem.eraseP fun q => q.1 == p.1) ?_)
          intro q hq
          exact hsub q ((List.eraseP_sublist rem).subset hq)
      · have hd2 : startsMonitor l = false := Bool.eq_false_iff.mpr hd
        rw [mergeStep_not_directive rem l hd2]
        dsimp only
        have hp : (configs.any fun p => hitsName l p.1) = false := by
          rw [List.any_eq_false]
          intro q hq
          simp [hitsName, hd2]
        rw [List.filter_cons_of_pos (by simp [hp])]
        exact (ih rem hsub).cons₂ l

theorem two_le_countP {α : Type} (pred : α → Bool) :
    ∀ (l : List α) (a b : α), a ∈ l → b ∈ l → a ≠ b →
      pred a = true → pred b = true → 2 ≤ l.countP pred := by
  intro l
  induction l with
  | nil => intro a b ha; exact absurd ha (List.not_mem_nil a)
  | cons x xs ih =>
      intro a b ha hb hne hpa hpb
      rcases List.mem_cons.mp ha with hax | hax
      · rcases List.mem_cons.mp hb with hbx | hbx
        · exact absurd (hax.trans hbx.symm) hne
        · rw [List.countP_cons_of_pos pred xs (hax ▸ hpa)]
          have : 0 < xs.countP pred := List.countP_pos_iff.mpr ⟨b, hbx, hpb⟩
          omega
      · rcases List.mem_cons.mp hb with hbx | hbx
        · rw [List.countP_cons_of_pos pred xs (hbx ▸ hpb)]
          have : 0 < xs.countP pred := List.countP_pos_iff.mpr ⟨a, hax, hpa⟩
          omega
        · have := ih a b hax hbx hne hpa hpb
          rw [List.countP_cons]
          omega

theorem find?_unique {α : Type} (pred : α → Bool) :
    ∀ (l : List α) (a : α), a ∈ l → pred a = true →
      (∀ b ∈ l, pred b = true → b = a) → l.find? pred = some a := by
  intro l
  induction l with
  | nil => intro a ha; exact absurd ha (List.not_mem_nil a)
  | cons x xs ih =>
      intro a ha hpa huniq
      by_cases hx : pred x = true
      · rw [List.find?_cons_of_pos xs hx]
        rw [huniq x (List.mem_cons_self x xs) hx]
      · rw [List.find?_cons_of_neg xs (by simp [hx])]
        have hax : a ∈ xs := by
          rcases List.mem_cons.mp ha with h1 | h1
          · exact absurd (h1 ▸ hpa) hx
          · exact h1
        exact ih a hax hpa (fun b hb hpb => huniq b (List.mem_cons_of_mem x hb) hpb)

theorem eraseP_eq_filter_unique {α : Type} (pr : α → Bool) :
    ∀ (l : List α) (a : α), l.Nodup → a ∈ l → pr a = true →
      (∀ b ∈ l, pr b = true → b = a) → l.eraseP pr = l.filter (fun b => !(pr b)) := by
  intro l
  induction l with
  | nil => intro a _ ha; exact absurd ha (List.not_mem_nil a)
  | cons x xs ih =>
      intro a hnd ha hpa huniq
      by_cases hx : pr x = true
      · rw [List.eraseP_cons_of_pos hx, List.filter_cons_of_neg (by simp [hx])]
        have hxa : x = a := huniq x (List.mem_cons_self x xs) hx
        have hnotin : a ∉ xs := hxa ▸ (List.nodup_cons.mp hnd).1
        symm
        rw [List.filter_eq_self]
        intro b hb
        by_cases hpb : pr b = true
        · exact absurd (huniq b (List.mem_cons_of_mem x hb) hpb ▸ hb) hnotin
        · simp [hpb]
      · rw [List.eraseP_cons_of_neg hx, List.filter_cons_of_pos (by simp [hx])]
        have hax : a ∈ xs := by
          rcases List.mem_cons.mp ha with h1 | h1
          · exact absurd (h1 ▸ hpa) hx
          · exact h1
        rw [ih a (List.nodup_cons.mp hnd).2 hax hpa
          (fun b hb hpb => huniq b (List.mem_cons_of_mem x hb) hpb)]

theorem mergeStep_snd_sublist (rem : List (String × String)) (l : String) :
    (mergeStep rem l).2.Sublist rem := by
  unfold mergeStep
  by_cases hd : startsMonitor l = true
  · rcases hf : rem.find? (fun q => lineMatches (strip l) q.1) with _ | p
    · simp [hd, hf]
    · simp only [hd, hf, if_true]
      exact List.eraseP_sublist rem
  · simp [Bool.eq_false_iff.mpr hd]

theorem procLines_length : ∀ (ls : List String) (rem : List (String × String)),
    (procLines ls rem).length = ls.length := by
  intro ls
  induction ls with
  | nil => intro rem; rfl
  | cons l ls ih => intro rem; simp [procLines_cons, ih]

theorem procLines_append : ∀ (xs ys : List String) (rem : List (String × String)),
    procLines (xs ++ ys) rem = procLines xs rem ++ procLines ys (scanRem xs rem) := by
  intro xs
  induction xs with
  | nil => intro ys rem; rfl
  | cons x xs ih =>
      intro ys rem
      rw [List.cons_append, procLines_cons, procLines_cons, scanRem_cons, ih]
      rfl

theorem scanRem_sublist : ∀ (ls : List String) (rem : List (String × String)),
    (scanRem ls rem).Sublist rem := by
  intro ls
  induction ls with
  | nil => intro rem; exact List.Sublist.refl rem
  | cons l ls ih =>
      intro rem
      rw [scanRem_cons]
      exact (ih (mergeStep rem l).2).trans (mergeStep_snd_sublist rem l)

theorem scanRem_eq_filter (configs : List (String × String))
    (hnodup : (configs.map Prod.fst).Nodup) :
    ∀ (ls : List String) (rem : List (String × String)),
      rem.Sublist configs →
      (∀ l ∈ ls, startsMonitor l = true →
        configs.countP (fun p => lineMatches (strip l) p.1) ≤ 1) →
      scanRem ls rem = rem.filter fun p => ls.all fun l2 => !(hitsName l2 p.1) := by
  intro ls
  induction ls with
  | nil =>
      intro rem _ _
      rw [show scanRem [] rem = rem from rfl]
      symm
      rw [List.filter_eq_self]
      intro p _
      simp
  | cons l ls ih =>
      intro rem hsub hone
      have honeTail : ∀ l2 ∈ ls, startsMonitor l2 = true →
          configs.countP (fun p => lineMatches (strip l2) p.1) ≤ 1 :=
        fun l2 h2 => hone l2 (List.mem_cons_of_mem l h2)
      rw [scanRem_cons]
      by_cases hd : startsMonitor l = true
      · rcases hf : rem.find? (fun q => lineMatches (strip l) q.1) with _ | p
        · rw [mergeStep_not_found rem l hd hf]
          dsimp only
          rw [ih rem hsub honeTail]
          apply List.filter_congr
          intro q hq
          have hql : lineMatches (strip l) q.1 = false :=
            Bool.eq_false_iff.mpr (List.find?_eq_none.mp hf q hq)
          simp [List.all_cons, hitsName, hql]
        · rw [mergeStep_found rem l p hd hf]
          dsimp only
          have hpmem : p ∈ rem := List.mem_of_find?_eq_some hf
          have hpmatch : lineMatches (strip l) p.1 = true := by
            have := List.find?_some hf
            simpa using this
          have hcnt := hone l (List.mem_cons_self l ls) hd
          have hconf_nodup : configs.Nodup := List.Nodup.of_map Prod.fst hnodup
          have hrem_nodup : rem.Nodup := List.Nodup.sublist hsub hconf_nodup
          have huniq : ∀ q ∈ rem, lineMatches (strip l) q.1 = true → q = p := by
            intro q hq hql
            by_contra hne
            have h2 : 2 ≤ rem.countP (fun r => lineMatches (strip l) r.1) :=
              two_le_countP _ rem q p hq hpmem hne hql hpmatch
            have hle := List.Sublist.countP_le (fun r => lineMatches (strip l) r.1) hsub
            omega
          have hkeys : (rem.map Prod.fst).Nodup :=
            List.Nodup.sublist (List.Sublist.map Prod.fst hsub) hnodup
          have hkey_uniq : ∀ q ∈ rem, (q.1 == p.1) = true → q = p := by
            intro q hq hqk
            exact List.inj_on_of_nodup_map hkeys hq hpmem (by simpa using hqk)
          have herase : rem.eraseP (fun q => q.1 == p.1)
              = rem.filter (fun q => !(q.1 == p.1)) :=
            eraseP_eq_filter_unique _ rem p hrem_nodup hpmem (by simp) hkey_uniq
          rw [herase]
          rw [ih (rem.filter fun q => !(q.1 == p.1))
            ((List.filter_sublist rem).trans hsub) honeTail]
          rw [List.filter_filter]
          apply List.filter_congr
          intro q hq
          have hiff : (q.1 == p.1) = lineMatches (strip l) q.1 := by
            by_cases hqp : q = p
            · subst hqp
              simp [hpmatch]
            · have h1 : (q.1 == p.1) = false := by
                cases hqk : (q.1 == p.1) with
                | true => exact absurd (hkey_uniq q hq hqk) hqp
                | false => rfl
              have h2 : lineMatches (strip l) q.1 = false := by
                cases hql : lineMatches (strip l) q.1 with
                | true => exact absurd (huniq q hq hql) hqp
                | false => rfl
              rw [h1, h2]
          rw [List.all_cons]
          simp [hitsName, hd, hiff, Bool.and_comm]
      · rw [mergeStep_not_directive rem l (Bool.eq_false_iff.mpr hd)]
        dsimp only
        rw [ih rem hsub honeTail]
        apply List.filter_congr
        intro q hq
        simp [List.all_cons, hitsName, Bool.eq_false_iff.mpr hd]

theorem procLines_keeps (configs : List (String × String)) (name cfg : String)
    (hnc : (name, cfg) ∈ configs) :
    ∀ (ls : List String) (rem : List (String × String)),
      rem.Sublist configs →
      (∀ q ∈ rem, q.1 ≠ name) →
      (∀ l ∈ ls, startsMonitor l = true →
        configs.countP (fun p => lineMatches (strip l) p.1) ≤ 1) →
      ∀ (i : ℕ) (hi : i < ls.length), hitsName (ls.get ⟨i, hi⟩) name = true →
        (procLines ls rem)[i]? = some (ls.get ⟨i, hi⟩) := by
  intro ls
  induction ls with
  | nil => intro rem _ _ _ i hi; exact absurd hi (by simp)
  | cons l ls ih =>
      intro rem hsub hkey hone i hi hhit
      cases i with
      | zero =>
          have hhit0 : hitsName l name = true := hhit
          unfold hitsName at hhit0
          rw [Bool.and_eq_true] at hhit0
          obtain ⟨hd, hmatch⟩ := hhit0
          have hf : rem.find? (fun q => lineMatches (strip l) q.1) = none := by
            rw [List.find?_eq_none]
            intro q hq hql
            have hqc : q ∈ configs := hsub.subset hq
            have hne : q ≠ (name, cfg) := by
              intro he
              exact hkey q hq (by rw [he])
            have h2 : 2 ≤ configs.countP (fun p => lineMatches (strip l) p.1) :=
              two_le_countP _ configs q (name, cfg) hqc hnc hne (by simpa using hql)
                (by simpa using hmatch)
            have := hone l (List.mem_cons_self l ls) hd
            omega
          rw [procLines_cons, mergeStep_not_found rem l hd hf]
          simp
      | succ j =>
          rw [procLines_cons]
          have hj : j < ls.length := by simpa using hi
          rw [List.getElem?_cons_succ]
          have hsub2 : (mergeStep rem l).2.Sublist configs :=
            (mergeStep_snd_sublist rem l).trans hsub
          have hkey2 : ∀ q ∈ (mergeStep rem l).2, q.1 ≠ name :=
            fun q hq => hkey q ((mergeStep_snd_sublist rem l).subset hq)
          have hone2 : ∀ l2 ∈ ls, startsMonitor l2 = true →
              configs.countP (fun p => lineMatches (strip l2) p.1) ≤ 1 :=
            fun l2 h2 => hone l2 (List.mem_cons_of_mem l h2)
          have hhit2 : hitsName (ls.get ⟨j, hj⟩) name = true := hhit
          exact ih (mergeStep rem l).2 hsub2 hkey2 hone2 j hj hhit2

/-! Claim theorems. -/

/-- C3: `calc_hypr_position` realizes the placement table — right is
`(current.x + logicalWidth(current), current.y + offset)`, left is
`(current.x - logicalWidth(new), current.y + offset)`, below is
`(current.x + offset, current.y + logicalHeight(current))`, above is
`(current.x + offset, current.y - logicalHeight(new))` — and the offset
never changes the coordinate on the placement axis. -/
theorem C3_compute_position_table (current new : Mon) (offset : ℤ) :
    calc_hypr_position .right current new offset
      = (current.x + (logical_size current).1, current.y + offset) ∧
    calc_hypr_position .left current new offset
      = (current.x - (logical_size new).1, current.y + offset) ∧
    calc_hypr_position .below current new offset
      = (current.x + offset, current.y + (logical_size current).2) ∧
    calc_hypr_position .above current new offset
      = (current.x + offset, current.y - (logical_size new).2) ∧
    (∀ o : ℤ, (calc_hypr_position .right current new o).1
      = (calc_hypr_position .right current new 0).1) ∧
    (∀ o : ℤ, (calc_hypr_position .left current new o).1
      = (calc_hypr_position .left current new 0).1) ∧
    (∀ o : ℤ, (calc_hypr_position .below current new o).2
      = (calc_hypr_position .below current new 0).2) ∧
    (∀ o : ℤ, (calc_hypr_position .above current new o).2
      = (calc_hypr_position .above current new 0).2) := by
  refine ⟨rfl, rfl, rfl, rfl, ?_, ?_, ?_, ?_⟩ <;> intro o <;> rfl

/-- C10: a plain (unmodified) arrow key sets the perpendicular offset to 0
regardless of its previous value and leaves the scale tenths unchanged. -/
theorem C10_plain_arrow_resets_offset (current new_mon : Mon) (st : PickerState)
    (k : ArrowKey) :
    (on_key current new_mon st (.arrow k false false)).offset = 0 ∧
    (on_key current new_mon st (.arrow k false false)).new_scale_tenths
      = st.new_scale_tenths := by
  constructor <;> simp [on_key]

/-- Reference semantics for the truncation claim: the exact embedding
`logical_size` is the floor of native resolution divided by
`scaleTenths / 10`, and gives the two documented example values.  This is
the behavior the spec demands of the program; the program's float division
fails it, see `C4_logical_size_float_bug`. -/
theorem exact_logical_size_truncation :
    (∀ m : Mon, 0 ≤ m.width → 0 ≤ m.height → 0 < m.scaleTenths →
      (logical_size m).1 = ⌊(m.width : ℚ) / ((m.scaleTenths : ℚ) / 10)⌋ ∧
      (logical_size m).2 = ⌊(m.height : ℚ) / ((m.scaleTenths : ℚ) / 10)⌋) ∧
    logical_size { width := 2560, height := 1600, x := 0, y := 0, scaleTenths := 20 }
      = (1280, 800) ∧
    logical_size { width := 3840, height := 2160, x := 0, y := 0, scaleTenths := 24 }
      = (1600, 900) := by
  refine ⟨fun m hw hh hs => ?_, by decide, by decide⟩
  rw [floor_div_tenths m.width m.scaleTenths hs, floor_div_tenths m.height m.scaleTenths hs]
  exact ⟨rfl, rfl⟩

/-- Float-division facts at width 33, scale 1.1.  The first conjunct shows
`fl11 = 2476979795053773 / 2^51` is within half an ulp (`2^-53` on `[1, 2)`)
of `11 / 10`, so it is the IEEE-754 double the literal `1.1` parses to under
round-to-nearest.  The last two conjuncts place the exact quotient
`33 / fl11` strictly between `30 - 2^-48` and the midpoint `30 - 2^-49`
(doubles in `[16, 32)` are spaced `2^-48` apart), so the correctly rounded
float quotient is the double `30 - 2^-48 < 30`, and Python's `int()`
truncates `33 / 1.1` to 29. -/
theorem float33_div_fl11_rounds_below_30 :
    |(2476979795053773 / 2 ^ 51 : ℚ) - 11 / 10| < 1 / 2 ^ 53 ∧
    30 - 1 / 2 ^ 48 < 33 / (2476979795053773 / 2 ^ 51 : ℚ) ∧
    33 / (2476979795053773 / 2 ^ 51 : ℚ) < 30 - 1 / 2 ^ 49 := by
  refine ⟨?_, by norm_num, by norm_num⟩
  rw [abs_sub_lt_iff]
  constructor <;> norm_num

/-- C4 (code bug): the claim demands the integer-truncated (not rounded)
quotient of native resolution by scale for every record.  At width 33,
scaleTenths 11 that quotient is 30 (second conjunct, the exact embedding's
value), but the program computes `int(33 / 1.1)` in IEEE double arithmetic,
which by the first conjunct rounds `33 / 1.1` to the double `30 - 2^-48`
and truncates it to 29 ≠ 30. -/
theorem C4_logical_size_float_bug :
    (|(2476979795053773 / 2 ^ 51 : ℚ) - 11 / 10| < 1 / 2 ^ 53 ∧
     30 - 1 / 2 ^ 48 < 33 / (2476979795053773 / 2 ^ 51 : ℚ) ∧
     33 / (2476979795053773 / 2 ^ 51 : ℚ) < 30 - 1 / 2 ^ 49) ∧
    logical_size { width := 33, height := 33, x := 0, y := 0, scaleTenths := 11 }
      = (30, 30) ∧
    (29 : ℤ) ≠ 30 :=
  ⟨float33_div_fl11_rounds_below_30, by decide, by decide⟩

/-- C8: the overlap test is exactly the strict rectangle-intersection test on
the two logical boxes; it is true for monitors of positive logical size at
the identical position, and false once the x-distance exceeds the combined
logical widths. -/
theorem C8_overlap_characterization (current new_mon : Mon) (nx ny : ℤ) :
    (monitors_overlap current nx ny new_mon = true ↔
      (nx < current.x + (logical_size current).1 ∧
       nx + (logical_size new_mon).1 > current.x ∧
       ny < current.y + (logical_size current).2 ∧
       ny + (logical_size new_mon).2 > current.y)) ∧
    (nx = current.x → ny = current.y →
      0 < (logical_size current).1 → 0 < (logical_size current).2 →
      0 < (logical_size new_mon).1 → 0 < (logical_size new_mon).2 →
      monitors_overlap current nx ny new_mon = true) ∧
    (0 ≤ (logical_size current).1 → 0 ≤ (logical_size new_mon).1 →
      ((logical_size current).1 + (logical_size new_mon).1 < nx - current.x ∨
       (logical_size current).1 + (logical_size new_mon).1 < current.x - nx) →
      monitors_overlap current nx ny new_mon = false) := by
  have hiff : monitors_overlap current nx ny new_mon = true ↔
      (nx < current.x + (logical_size current).1 ∧
       nx + (logical_size new_mon).1 > current.x ∧
       ny < current.y + (logical_size current).2 ∧
       ny + (logical_size new_mon).2 > current.y) := by
    simp [monitors_overlap, and_assoc]
  refine ⟨hiff, fun hx hy h1 h2 h3 h4 => ?_, fun hc hn hgap => ?_⟩
  · rw [hiff]
    subst hx
    subst hy
    refine ⟨by omega, by omega, by omega, by omega⟩
  · rw [Bool.eq_false_iff]
    intro habs
    rw [hiff] at habs
    omega

/-- C8 witness: the 1280x800-logical and 1600x900-logical example monitors
placed at the identical origin do overlap. -/
theorem C8_overlap_characterization_witness :
    monitors_overlap monA 0 0 monB = true :=
  (C8_overlap_characterization monA monB 0 0).2.1
    (by decide) (by decide) (by decide) (by decide) (by decide) (by decide)

/-- C9: at every reachable session state the scale tenths value stays in
[5, 50], starting from the new monitor's own (validated) scale and preserved
by the clamped increment and decrement operations. -/
theorem C9_scale_tenths_invariant (current new_mon : Mon)
    (h5 : 5 ≤ new_mon.scaleTenths) (h50 : new_mon.scaleTenths ≤ 50) :
    ∀ s : PickerState, Reachable current new_mon s →
      5 ≤ s.new_scale_tenths ∧ s.new_scale_tenths ≤ 50 := by
  intro s hs
  induction hs with
  | init => exact ⟨h5, h50⟩
  | @step s' e _ ih =>
      cases e with
      | arrow k alt shift =>
          have harrow : (on_key current new_mon s' (.arrow k alt shift)).new_scale_tenths
              = s'.new_scale_tenths := by
            simp only [on_key]
            split
            · split
              · rfl
              · rfl
            · rfl
          rw [harrow]
          exact ih
      | keyS =>
          simp only [on_key]
          omega
      | keyShiftS =>
          simp only [on_key]
          omega

/-- C9 witness: the invariant holds at the initial state for the scale-2.4
example monitor. -/
theorem C9_scale_tenths_invariant_witness :
    5 ≤ (init_state monB).new_scale_tenths ∧ (init_state monB).new_scale_tenths ≤ 50 :=
  C9_scale_tenths_invariant monA monB (by decide) (by decide) _ Reachable.init

/-- C1: the merger preserves, verbatim and in original order, every line
that is not a directive line matching a mapped monitor name — such lines
form a sublist of the rewritten file. -/
theorem C1_merge_preserves_nonmatching (content : List String)
    (configs : List (String × String)) :
    (content.filter fun l => !(configs.any fun p => hitsName l p.1)).Sublist
      (rewrite_monitors_conf content configs) := by
  unfold rewrite_monitors_conf
  exact (procLines_preserves_frame configs content configs (fun p hp => hp)).trans
    (List.sublist_append_left _ _)

/-- C5 counterexample: the claim fails as universally stated.  With the
mapping [(AA, cfgA), (BB, cfgB)], the first directive line contains the
match substrings of both names, so it is consumed by AA (the first pending
name): it is not replaced by the new directive line of BB, and the later
line referencing BB is then replaced rather than left unchanged.  The last
two conjuncts also show the match substring is found anywhere in the
stripped line, not only immediately after the keyword: a line whose
immediately-after-keyword name is the unmapped X is still replaced. -/
theorem C5_first_match_replacement_cex :
    rewrite_monitors_conf ["monitor = AA, = BB\n", "monitor = BB, x\n"]
      [("AA", "cfgA"), ("BB", "cfgB")]
      = ["monitor = cfgA\n", "monitor = cfgB\n"] ∧
    hitsName "monitor = AA, = BB\n" "BB" = true ∧
    hitsName "monitor = BB, x\n" "BB" = true ∧
    "monitor = cfgA\n" ≠ fmtLine "cfgB" ∧
    "monitor = cfgB\n" ≠ "monitor = BB, x\n" ∧
    hitsName "monitor = X, = AA\n" "AA" = true ∧
    rewrite_monitors_conf ["monitor = X, = AA\n"] [("AA", "cfgA")]
      = ["monitor = cfgA\n"] := by decide

/-- C5 (amended): provided no directive line references more than one mapped
name, each mapped name is matched at most once: the first directive line
referencing it is replaced in place by the new directive line, later lines
referencing the same name are left unchanged, and every name matched by no
line gets exactly one new directive line appended at end of file (the
appended block lists exactly the unmatched configs, in mapping order). -/
theorem C5_first_match_replacement (content : List String)
    (configs : List (String × String))
    (hnodup : (configs.map Prod.fst).Nodup)
    (hone : ∀ l ∈ content, startsMonitor l = true →
      configs.countP (fun p => lineMatches (strip l) p.1) ≤ 1) :
    (∀ name cfg pre l post, (name, cfg) ∈ configs →
      content = pre ++ l :: post →
      (∀ l2 ∈ pre, hitsName l2 name = false) →
      hitsName l name = true →
      ∃ opre opost,
        rewrite_monitors_conf content configs = opre ++ fmtLine cfg :: opost ∧
        opre.length = pre.length ∧
        ∀ (i : ℕ) (hi : i < post.length), hitsName (post.get ⟨i, hi⟩) name = true →
          opost[i]? = some (post.get ⟨i, hi⟩)) ∧
    (rewrite_monitors_conf content configs).drop content.length
      = (configs.filter fun p => content.all fun l2 => !(hitsName l2 p.1)).map
          (fun p => fmtLine p.2) := by
  constructor
  · intro name cfg pre l post hnc hcontent hpre hhit
    subst hcontent
    unfold hitsName at hhit
    rw [Bool.and_eq_true] at hhit
    obtain ⟨hd, hmatch⟩ := hhit
    have hlmem : l ∈ pre ++ l :: post :=
      List.mem_append_right pre (List.mem_cons_self l post)
    have honePre : ∀ l2 ∈ pre, startsMonitor l2 = true →
        configs.countP (fun p => lineMatches (strip l2) p.1) ≤ 1 :=
      fun l2 h2 => hone l2 (List.mem_append_left _ h2)
    have honePost : ∀ l2 ∈ post, startsMonitor l2 = true →
        configs.countP (fun p => lineMatches (strip l2) p.1) ≤ 1 :=
      fun l2 h2 => hone l2 (List.mem_append_right pre (List.mem_cons_of_mem l h2))
    have hrem1_eq : scanRem pre configs
        = configs.filter (fun p => pre.all fun l2 => !(hitsName l2 p.1)) :=
      scanRem_eq_filter configs hnodup pre configs (List.Sublist.refl configs) honePre
    have hsub1 : (scanRem pre configs).Sublist configs := scanRem_sublist pre configs
    have hmem1 : (name, cfg) ∈ scanRem pre configs := by
      rw [hrem1_eq, List.mem_filter]
      refine ⟨hnc, ?_⟩
      rw [List.all_eq_true]
      intro l2 h2
      simp [hpre l2 h2]
    have huniq1 : ∀ q ∈ scanRem pre configs, lineMatches (strip l) q.1 = true →
        q = (name, cfg) := by
      intro q hq hql
      by_contra hne
      have h2 : 2 ≤ configs.countP (fun p => lineMatches (strip l) p.1) :=
        two_le_countP _ configs q (name, cfg) (hsub1.subset hq) hnc hne hql hmatch
      have := hone l hlmem hd
      omega
    have hfind : (scanRem pre configs).find? (fun q => lineMatches (strip l) q.1)
        = some (name, cfg) :=
      find?_unique _ (scanRem pre configs) (name, cfg) hmem1 (by simpa using hmatch)
        (fun b hb hpb => huniq1 b hb (by simpa using hpb))
    have hkeys1 : ((scanRem pre configs).map Prod.fst).Nodup :=
      List.Nodup.sublist (List.Sublist.map Prod.fst hsub1) hnodup
    have hnd1 : (scanRem pre configs).Nodup :=
      List.Nodup.sublist hsub1 (List.Nodup.of_map Prod.fst hnodup)
    have hkeyu : ∀ q ∈ scanRem pre configs, (q.1 == name) = true → q = (name, cfg) := by
      intro q hq hqk
      exact List.inj_on_of_nodup_map hkeys1 hq hmem1 (by simpa using hqk)
    have herase : (scanRem pre configs).eraseP (fun q => q.1 == name)
        = (scanRem pre configs).filter (fun q => !(q.1 == name)) :=
      eraseP_eq_filter_unique _ (scanRem pre configs) (name, cfg) hnd1 hmem1
        (by simp) hkeyu
    have hkey2 : ∀ q ∈ (scanRem pre configs).eraseP (fun q => q.1 == name),
        q.1 ≠ name := by
      intro q hq
      rw [herase] at hq
      have := (List.mem_filter.mp hq).2
      simpa using this
    have hsub2 : ((scanRem pre configs).eraseP (fun q => q.1 == name)).Sublist configs :=
      (List.eraseP_sublist (scanRem pre configs)).trans hsub1
    unfold rewrite_monitors_conf
    rw [procLines_append, procLines_cons,
      mergeStep_found (scanRem pre configs) l (name, cfg) hd hfind]
    dsimp only
    refine ⟨procLines pre configs,
      procLines post ((scanRem pre configs).eraseP fun q => q.1 == name)
        ++ (scanRem (pre ++ l :: post) configs).map (fun p => fmtLine p.2),
      ?_, procLines_length pre configs, ?_⟩
    · rw [List.append_assoc]
      rfl
    · intro i hi hh
      rw [List.getElem?_append]
      rw [if_pos (by rw [procLines_length]; exact hi)]
      exact procLines_keeps configs name cfg hnc post
        ((scanRem pre configs).eraseP fun q => q.1 == name) hsub2 hkey2 honePost i hi hh
  · unfold rewrite_monitors_conf
    have hlen : (procLines content configs).length = content.length :=
      procLines_length content configs
    rw [← hlen, List.drop_left]
    rw [scanRem_eq_filter configs hnodup content configs (List.Sublist.refl configs) hone]

/-- C5 witness: the amended claim instantiated on the documented example
file, replacing the eDP-1 directive line in place. -/
theorem C5_first_match_replacement_witness :
    ∃ opre opost,
      rewrite_monitors_conf
          ["# comment\n", "monitor = eDP-1, 2560x1600@180, 0x0, 2\n", "env = FOO,bar\n"]
          [("eDP-1", "eDP-1, newbody")]
        = opre ++ fmtLine "eDP-1, newbody" :: opost ∧
      opre.length = (["# comment\n"] : List String).length ∧
      ∀ (i : ℕ) (hi : i < (["env = FOO,bar\n"] : List String).length),
        hitsName ((["env = FOO,bar\n"] : List String).get ⟨i, hi⟩) "eDP-1" = true →
          opost[i]? = some ((["env = FOO,bar\n"] : List String).get ⟨i, hi⟩) :=
  (C5_first_match_replacement
    ["# comment\n", "monitor = eDP-1, 2560x1600@180, 0x0, 2\n", "env = FOO,bar\n"]
    [("eDP-1", "eDP-1, newbody")] (by decide) (by decide)).1
    "eDP-1" "eDP-1, newbody" ["# comment\n"]
    "monitor = eDP-1, 2560x1600@180, 0x0, 2\n" ["env = FOO,bar\n"]
    (by decide) rfl (by decide) (by decide)

/-- C6: a coarse offset step snaps to the nearest crossed alignment
candidate in the direction of motion when one lies between the old offset
(exclusive) and the raw stepped offset (inclusive), returns the raw stepped
offset unchanged when none is crossed, and never returns the old offset
again (so a step away from a candidate always moves strictly past it). -/
theorem C6_snap_rule (position : Pos) (current new_mon : Mon) (old step : ℤ)
    (hstep : 0 < step) :
    ((∃ s ∈ snap_offsets position current new_mon, old < s ∧ s ≤ old + step) →
      snap_offset (snap_offsets position current new_mon) old (old + step) true
          ∈ snap_offsets position current new_mon ∧
      old < snap_offset (snap_offsets position current new_mon) old (old + step) true ∧
      snap_offset (snap_offsets position current new_mon) old (old + step) true ≤ old + step ∧
      ∀ s ∈ snap_offsets position current new_mon, old < s → s ≤ old + step →
        snap_offset (snap_offsets position current new_mon) old (old + step) true ≤ s) ∧
    ((∀ s ∈ snap_offsets position current new_mon, ¬(old < s ∧ s ≤ old + step)) →
      snap_offset (snap_offsets position current new_mon) old (old + step) true
        = old + step) ∧
    snap_offset (snap_offsets position current new_mon) old (old + step) true ≠ old ∧
    ((∃ s ∈ snap_offsets position current new_mon, old - step ≤ s ∧ s < old) →
      snap_offset (snap_offsets position current new_mon) old (old - step) false
          ∈ snap_offsets position current new_mon ∧
      old - step ≤ snap_offset (snap_offsets position current new_mon) old (old - step) false ∧
      snap_offset (snap_offsets position current new_mon) old (old - step) false < old ∧
      ∀ s ∈ snap_offsets position current new_mon, old - step ≤ s → s < old →
        s ≤ snap_offset (snap_offsets position current new_mon) old (old - step) false) ∧
    ((∀ s ∈ snap_offsets position current new_mon, ¬(old - step ≤ s ∧ s < old)) →
      snap_offset (snap_offsets position current new_mon) old (old - step) false
        = old - step) ∧
    snap_offset (snap_offsets position current new_mon) old (old - step) false ≠ old := by
  rcases snap_offset_pos_spec (snap_offsets position current new_mon) old (old + step) with
    ⟨hraw, hnone⟩ | ⟨hmem, hlow, hhigh, hleast⟩
  · rcases snap_offset_neg_spec (snap_offsets position current new_mon) old (old - step) with
      ⟨hraw2, hnone2⟩ | ⟨hmem2, hlow2, hhigh2, hgreatest2⟩
    · refine ⟨fun hex => ?_, fun _ => hraw, by omega, fun hex => ?_, fun _ => hraw2, by omega⟩
      · obtain ⟨s, hs, hc⟩ := hex
        exact absurd hc (hnone s hs)
      · obtain ⟨s, hs, hc⟩ := hex
        exact absurd hc (hnone2 s hs)
    · refine ⟨fun hex => ?_, fun _ => hraw, by omega,
        fun _ => ⟨hmem2, hlow2, hhigh2, hgreatest2⟩, fun hall => ?_, by omega⟩
      · obtain ⟨s, hs, hc⟩ := hex
        exact absurd hc (hnone s hs)
      · exact absurd ⟨hlow2, hhigh2⟩ (hall _ hmem2)
  · rcases snap_offset_neg_spec (snap_offsets position current new_mon) old (old - step) with
      ⟨hraw2, hnone2⟩ | ⟨hmem2, hlow2, hhigh2, hgreatest2⟩
    · refine ⟨fun _ => ⟨hmem, hlow, hhigh, hleast⟩, fun hall => ?_, by omega,
        fun hex => ?_, fun _ => hraw2, by omega⟩
      · exact absurd ⟨hlow, hhigh⟩ (hall _ hmem)
      · obtain ⟨s, hs, hc⟩ := hex
        exact absurd hc (hnone2 s hs)
    · refine ⟨fun _ => ⟨hmem, hlow, hhigh, hleast⟩, fun hall => ?_, by omega,
        fun _ => ⟨hmem2, hlow2, hhigh2, hgreatest2⟩, fun hall => ?_, by omega⟩
      · exact absurd ⟨hlow, hhigh⟩ (hall _ hmem)
      · exact absurd ⟨hlow2, hhigh2⟩ (hall _ hmem2)

/-- C6 witness: the snap rule instantiated for the example monitors at
offset 0 with the coarse step 25. -/
theorem C6_snap_rule_witness :
    snap_offset (snap_offsets .right monA monB) 0 (0 + 25) true ≠ 0 :=
  (C6_snap_rule .right monA monB 0 25 (by decide)).2.2.1

/-- Reference equivalence for the two directive forms: POSIX shell
evaluation of the symbolic x and y expressions equals the exact-truncation
position `calc_hypr_position`, for every position, monitor pair with
positive dimensions and scale tenths in [5, 50], and every offset.  The
symbolic form therefore realizes the exact semantics; the program's literal
form is produced through float division and deviates from it, see
`C2_symbolic_float_bug`. -/
theorem exact_symbolic_matches_literal (position : Pos) (current new : Mon) (offset : ℤ)
    (hcw : 0 < current.width) (hch : 0 < current.height)
    (hnw : 0 < new.width) (hnh : 0 < new.height)
    (hcs5 : 5 ≤ current.scaleTenths) (hcs50 : current.scaleTenths ≤ 50)
    (hns5 : 5 ≤ new.scaleTenths) (hns50 : new.scaleTenths ≤ 50) :
    ((build_pos_exprs position current new offset new.scaleTenths).1.eval,
     (build_pos_exprs position current new offset new.scaleTenths).2.eval)
      = calc_hypr_position position current new offset := by
  cases position with
  | right =>
      simp only [build_pos_exprs, calc_hypr_position]
      rw [eadd_eval, with_offset_eval,
        scale_div_expr_eval current.width current.scaleTenths hcw.le hcs5]
      rfl
  | left =>
      simp only [build_pos_exprs, calc_hypr_position]
      rw [esub_eval, with_offset_eval,
        scale_div_expr_eval new.width new.scaleTenths hnw.le hns5]
      rfl
  | below =>
      simp only [build_pos_exprs, calc_hypr_position]
      rw [eadd_eval, with_offset_eval,
        scale_div_expr_eval current.height current.scaleTenths hch.le hcs5]
      rfl
  | above =>
      simp only [build_pos_exprs, calc_hypr_position]
      rw [esub_eval, with_offset_eval,
        scale_div_expr_eval new.height new.scaleTenths hnh.le hns5]
      rfl

/-- C2 (code bug): the claim says shell evaluation of the emitted symbolic
expressions equals the literal coordinate pair on the same inputs.  For a
current monitor of width 33 at scale 1.1 placed right, the emitted x
expression is `$((33 * 10 / 11))`, which evaluates to 30 under POSIX
integer arithmetic (second and third conjuncts), while the program's
literal form uses `int(33 / 1.1)`, which by the first conjunct is 29 in
IEEE double arithmetic — the two forms disagree, so they are not
equivalent in the program. -/
theorem C2_symbolic_float_bug :
    (|(2476979795053773 / 2 ^ 51 : ℚ) - 11 / 10| < 1 / 2 ^ 53 ∧
     30 - 1 / 2 ^ 48 < 33 / (2476979795053773 / 2 ^ 51 : ℚ) ∧
     33 / (2476979795053773 / 2 ^ 51 : ℚ) < 30 - 1 / 2 ^ 49) ∧
    (build_pos_exprs .right
        { width := 33, height := 33, x := 0, y := 0, scaleTenths := 11 }
        monB 0 monB.scaleTenths).1.eval = 30 ∧
    build_pos_strs .right
        { width := 33, height := 33, x := 0, y := 0, scaleTenths := 11 }
        monB 0 monB.scaleTenths
      = ("$((33 * 10 / 11))", "$((0))") ∧
    (29 : ℤ) ≠ 30 :=
  ⟨float33_div_fl11_rounds_below_30, by decide, by decide, by decide⟩

/-- C7: formatting of the tenths value renders the integer quotient for
multiples of 10 and exactly one decimal digit otherwise (20 gives 2,
24 gives 2.4, 15 gives 1.5), and parsing the displayed value back to tenths
recovers the original value for every tenths in [5, 50]. -/
theorem C7_format_scale_roundtrip (t : ℤ) (h5 : 5 ≤ t) (h50 : t ≤ 50) :
    (t % 10 = 0 → format_scale t = toString (t / 10)) ∧
    (t % 10 ≠ 0 → format_scale t = toString (t / 10) ++ "." ++ toString (t % 10) ∧
      (toString (t % 10)).length = 1) ∧
    scale_tenths_from (parse_decimal (format_scale t)) = t ∧
    format_scale 20 = "2" ∧ format_scale 24 = "2.4" ∧ format_scale 15 = "1.5" := by
  interval_cases t <;>
    exact ⟨by decide, by decide, scale_roundtrip_of_check _ _ (by decide),
      by decide, by decide, by decide⟩

/-- C7 witness: the round-trip identity at tenths 24. -/
theorem C7_format_scale_roundtrip_witness :
    scale_tenths_from (parse_decimal (format_scale 24)) = 24 :=
  (C7_format_scale_roundtrip 24 (by decide) (by decide)).2.2.1

end MonitorPicker
